import Mathlib

/-!
Verification of the JSON selector / tree-builder core of
`tui-rs-tree-widget` (file `src/json.rs`) against its specification.

The external `serde_json::Value` type is embedded as the inductive `Value`
below (numbers as `Int`; object members as an ordered association list, the
key-uniqueness guarantee of `serde_json::Map` becoming the well-formedness
predicate `Value.wf`).  The crate-internal `Selector` and `TreeItem` types
live outside the sources under verification, so they are modelled from the
specification where noted.  Rust's `Option` maps to Lean's `Option`; a
`.unwrap()` panic is modelled as `Option` failure propagating outward.
-/

namespace JsonTree

/-- The external JSON value type (`serde_json::Value`): a tagged union over
null, booleans, numbers (modelled as `Int`), strings, ordered arrays and
ordered objects (association lists of key/value pairs). -/
inductive Value where
  | null : Value
  | bool (b : Bool) : Value
  | num (n : Int) : Value
  | str (s : String) : Value
  | arr (elems : List Value) : Value
  | obj (members : List (String × Value)) : Value

/-- Modelled from the spec: the `Selector` tagged union from the crate's
`identifier` module (not part of the verified sources), with variants
`None`, `ObjectKey(String)` and `ArrayIndex(usize)`. -/
inductive Selector where
  | none : Selector
  | objectKey (key : String) : Selector
  | arrayIndex (index : Nat) : Selector
deriving DecidableEq, Repr

/-- A JSON value is a scalar when it is neither an array nor an object. -/
def Value.isScalar : Value → Bool
  | .arr _ => false
  | .obj _ => false
  | _ => true

/-- A JSON value is a container when it is an array or an object. -/
def Value.isContainer : Value → Bool
  | .arr _ => true
  | .obj _ => true
  | _ => false

mutual

/-- Well-formedness of an embedded JSON value: every object in the tree has
pairwise-distinct keys.  This is a structural guarantee of the external
`serde_json::Map` type, which the association-list embedding must state
explicitly. -/
def Value.wf : Value → Bool
  | .null => true
  | .bool _ => true
  | .num _ => true
  | .str _ => true
  | .arr elems => wfList elems
  | .obj members =>
      decide ((members.map Prod.fst).Nodup) && wfMembers members

/-- Well-formedness of every element of an array. -/
def wfList : List Value → Bool
  | [] => true
  | v :: rest => v.wf && wfList rest

/-- Well-formedness of every member value of an object. -/
def wfMembers : List (String × Value) → Bool
  | [] => true
  | (_, v) :: rest => v.wf && wfMembers rest

end

/-- Embedding of `select_one` from `src/json.rs`: select one layer into
`root`.  `object.get(key)` on the association list is first-match lookup
(unambiguous under `Value.wf`), `array.get(index)` is positional lookup. -/
def select_one (root : Value) (selector : Selector) : Option Value :=
  match root, selector with
  | .obj object, .objectKey key => (object.find? (fun m => m.1 == key)).map Prod.snd
  | .arr array, .arrayIndex index => array[index]?
  | _, _ => Option.none

/-- Embedding of `select` from `src/json.rs`: the loop
`for select in selector { current = select_one(current, select)?; }`
is a monadic left fold over the path in the `Option` monad. -/
def select (root : Value) (selector : List Selector) : Option Value :=
  List.foldlM select_one root selector

/-- Modelled from the spec's words for the path-composition property of
claim C1: the iterated application of `select_one` across the steps of the
path in order, starting from `root`, short-circuiting to the absent result
on the first failing step.  To be compared with `select` above. -/
def selectIter (root : Value) : List Selector → Option Value
  | [] => some root
  | s :: rest =>
      match select_one root s with
      | Option.none => Option.none
      | some v => selectIter v rest

/-- Root value of the worked example in the spec (§8):
the array `[false, {"bla": false, "blubb": true}, false]`. -/
def exampleRoot : Value :=
  .arr [.bool false, .obj [("bla", .bool false), ("blubb", .bool true)], .bool false]

/-- Modelled from the spec: the display-text conversion of `Selector` from
the crate's `identifier` module (not part of the verified sources):
the `None` step shows as the empty string, an `ObjectKey` step as the key
text, an `ArrayIndex` step as the decimal index text. -/
def Selector.display : Selector → String
  | .none => ""
  | .objectKey key => key
  | .arrayIndex index => toString index

/-- Hexadecimal digit character for a nibble. -/
def hexDigit (n : Nat) : Char :=
  if n < 10 then Char.ofNat (48 + n) else Char.ofNat (87 + n)

/-- JSON escaping of a single character, as serde_json's string serializer
performs it (quote, backslash, and control characters). -/
def jsonEscapeChar (c : Char) : String :=
  if c = '"' then "\\\""
  else if c = '\\' then "\\\\"
  else if c = '\n' then "\\n"
  else if c = '\r' then "\\r"
  else if c = '\t' then "\\t"
  else if c = '\x08' then "\\b"
  else if c = '\x0c' then "\\f"
  else if c.toNat < 32 then
    "\\u00" ++ String.singleton (hexDigit (c.toNat / 16)) ++
      String.singleton (hexDigit (c.toNat % 16))
  else String.singleton c

/-- JSON quoted form of a string. -/
def jsonQuote (s : String) : String :=
  "\"" ++ String.join (s.toList.map jsonEscapeChar) ++ "\""

mutual

/-- The external `Display`/`to_string` serialization of a `serde_json::Value`
(compact JSON form), which the tree builder delegates scalar formatting to. -/
def Value.jsonText : Value → String
  | .null => "null"
  | .bool b => cond b "true" "false"
  | .num n => toString n
  | .str s => jsonQuote s
  | .arr elems => "[" ++ jsonTextElems elems ++ "]"
  | .obj members => "\x7b" ++ jsonTextMembers members ++ "\x7d"

/-- Comma-separated serialization of array elements. -/
def jsonTextElems : List Value → String
  | [] => ""
  | [v] => v.jsonText
  | v :: rest => v.jsonText ++ "," ++ jsonTextElems rest

/-- Comma-separated serialization of object members. -/
def jsonTextMembers : List (String × Value) → String
  | [] => ""
  | [(k, v)] => jsonQuote k ++ ":" ++ v.jsonText
  | (k, v) :: rest => jsonQuote k ++ ":" ++ v.jsonText ++ "," ++ jsonTextMembers rest

end

/-- Modelled from the spec: the `TreeItem` node type of the widget crate
(not part of the verified sources): an identifying `Selector`, a display
text, and an ordered list of child nodes. -/
inductive TreeItem where
  | mk (identifier : Selector) (text : String) (children : List TreeItem)

/-- The Selector identifying this node within its sibling group. -/
def TreeItem.identifier : TreeItem → Selector
  | .mk i _ _ => i

/-- The display text of this node. -/
def TreeItem.text : TreeItem → String
  | .mk _ t _ => t

/-- The ordered children of this node. -/
def TreeItem.children : TreeItem → List TreeItem
  | .mk _ _ c => c

/-- Modelled from the spec: `TreeItem::new` constructs a container node and
fails when the children's identifiers are not pairwise distinct, since a
node is uniquely identified within its sibling group by its Selector.  The
Rust constructor returns a `Result`; failure is modelled as `Option.none`. -/
def TreeItem.new (identifier : Selector) (text : String)
    (children : List TreeItem) : Option TreeItem :=
  if (children.map TreeItem.identifier).Nodup then
    some (.mk identifier text children)
  else
    Option.none

/-- Modelled from the spec: `TreeItem::new_leaf` constructs a childless
node; it cannot fail. -/
def TreeItem.new_leaf (identifier : Selector) (text : String) : TreeItem :=
  .mk identifier text []

mutual

/-- Embedding of `recurse` from `src/json.rs`: build a single node for a
(selector, value) pair below the root.  The `.unwrap()` on `TreeItem::new`
is modelled by propagating `Option` failure. -/
def recurse (key : Selector) (value : Value) : Option TreeItem :=
  match value with
  | .obj object =>
      (from_object object).bind fun children =>
        TreeItem.new key key.display children
  | .arr array =>
      (from_array_aux 0 array).bind fun children =>
        TreeItem.new key key.display children
  | _ => some (TreeItem.new_leaf key (key.display ++ ": " ++ value.jsonText))

/-- Embedding of `from_object` from `src/json.rs`: one node per member, in
iteration order, each addressed by the member's key. -/
def from_object : List (String × Value) → Option (List TreeItem)
  | [] => some []
  | (key, value) :: rest =>
      (recurse (.objectKey key) value).bind fun item =>
        (from_object rest).map fun items => item :: items

/-- Embedding of the `enumerate`-based loop of `from_array` from
`src/json.rs`, with the running index made explicit. -/
def from_array_aux (start : Nat) : List Value → Option (List TreeItem)
  | [] => some []
  | value :: rest =>
      (recurse (.arrayIndex start) value).bind fun item =>
        (from_array_aux (start + 1) rest).map fun items => item :: items

end

/-- Embedding of `from_array` from `src/json.rs`: one node per element,
addressed by its position, indices starting at 0. -/
def from_array (array : List Value) : Option (List TreeItem) :=
  from_array_aux 0 array

/-- Embedding of `tree_items` from `src/json.rs` (the spec's `build_tree`):
object and array roots expand member-wise; any scalar root becomes a single
leaf addressed by `Selector.none` labelled with the scalar's textual form. -/
def tree_items (root : Value) : Option (List TreeItem) :=
  match root with
  | .obj object => from_object object
  | .arr array => from_array array
  | _ => some [TreeItem.new_leaf .none root.jsonText]

mutual

/-- Every sibling group strictly inside this node has pairwise-distinct
identifiers. -/
def subtreeOk : TreeItem → Bool
  | .mk _ _ children =>
      decide ((children.map TreeItem.identifier).Nodup) && forestSubtreesOk children

/-- Conjunction of `subtreeOk` over a list of nodes. -/
def forestSubtreesOk : List TreeItem → Bool
  | [] => true
  | it :: rest => subtreeOk it && forestSubtreesOk rest

end

/-- Every sibling group of the forest, the top-level group included, has
pairwise-distinct identifiers. -/
def forestOk (items : List TreeItem) : Bool :=
  decide ((items.map TreeItem.identifier).Nodup) && forestSubtreesOk items

/-- First node of a sibling group carrying the given Selector. -/
def findItem (items : List TreeItem) (s : Selector) : Option TreeItem :=
  items.find? (fun it => it.identifier == s)

/-- Navigate a forest along a nonempty selector path: each step descends
into the sibling whose identifier is the step's Selector. -/
def forestAt : List TreeItem → List Selector → Option TreeItem
  | _, [] => Option.none
  | items, [s] => findItem items s
  | items, s :: rest =>
      match findItem items s with
      | Option.none => Option.none
      | some it => forestAt it.children rest

/-- The forest of child nodes the tree builder derives from a value: the
member nodes for containers, no children for scalars. -/
def childForest : Value → Option (List TreeItem)
  | .obj members => from_object members
  | .arr elems => from_array elems
  | _ => some []

theorem select_nil (root : Value) : select root [] = some root := rfl

theorem select_cons (root : Value) (s : Selector) (rest : List Selector) :
    select root (s :: rest) = (select_one root s).bind (fun v => select v rest) := by
  cases h : select_one root s <;>
    simp [select, List.foldlM_cons, h, Option.bind]

/-- C1 -- For every root value and every selector path, `select root path`
equals the iterated application of `select_one` across the steps of the
path in order, starting from `root`, short-circuiting to the absent result
on the first failing step; and on the spec's worked example the path
`[ArrayIndex 1, ObjectKey "blubb"]` selects the value `true`. -/
theorem select_eq_iterated_select_one :
    (∀ (root : Value) (path : List Selector), select root path = selectIter root path) ∧
      select exampleRoot [.arrayIndex 1, .objectKey "blubb"] = some (.bool true) := by
  constructor
  · intro root path
    induction path generalizing root with
    | nil => rfl
    | cons s rest ih =>
        rw [select_cons]
        cases h : select_one root s with
        | none => simp [selectIter, h]
        | some v => simp [selectIter, h, ih v]
  · rfl

/-- C8 -- For every root value, `select` with the empty selector path
succeeds and returns the root value itself. -/
theorem select_empty_path_returns_root (root : Value) :
    select root [] = some root := rfl

theorem find?_eq_of_nodup_keys {o : List (String × Value)} {k : String} {v : Value}
    (hnd : (o.map Prod.fst).Nodup) (hmem : (k, v) ∈ o) :
    o.find? (fun m => m.1 == k) = some (k, v) := by
  induction o with
  | nil => cases hmem
  | cons m rest ih =>
      simp only [List.map_cons, List.nodup_cons] at hnd
      rcases List.mem_cons.mp hmem with h | h
      · subst h
        simp [List.find?]
      · have hne : m.1 ≠ k := by
          intro he
          exact hnd.1 (he ▸ (List.mem_map.mpr ⟨(k, v), h, rfl⟩))
        rw [List.find?_cons_of_neg _ (by simp [hne])]
        exact ih hnd.2 h

theorem find?_eq_none_of_not_mem {o : List (String × Value)} {k : String}
    (habs : ∀ v, (k, v) ∉ o) :
    o.find? (fun m => m.1 == k) = Option.none := by
  rw [List.find?_eq_none]
  intro m hm
  simp only [beq_iff_eq, decide_eq_true_eq]
  intro he
  exact habs m.2 (by simpa [← he] using hm)

/-- C2 -- `select_one` on an array with an `ArrayIndex` step returns the
element at the index when it is within bounds and the absent result when it
is out of bounds; on an object with an `ObjectKey` step it returns the
member mapped at the key when present and the absent result when absent. -/
theorem select_one_array_object_spec (a : List Value) (i : Nat)
    (o : List (String × Value)) (k : String) :
    (∀ (h : i < a.length), select_one (.arr a) (.arrayIndex i) = some a[i]) ∧
      (a.length ≤ i → select_one (.arr a) (.arrayIndex i) = Option.none) ∧
      ((o.map Prod.fst).Nodup → ∀ v, (k, v) ∈ o →
        select_one (.obj o) (.objectKey k) = some v) ∧
      ((∀ v, (k, v) ∉ o) → select_one (.obj o) (.objectKey k) = Option.none) := by
  refine ⟨fun h => ?_, fun h => ?_, fun hnd v hmem => ?_, fun habs => ?_⟩
  · simp [select_one, List.getElem?_eq_getElem h]
  · simp [select_one, List.getElem?_eq_none h]
  · simp [select_one, find?_eq_of_nodup_keys hnd hmem]
  · simp [select_one, find?_eq_none_of_not_mem habs]

theorem select_one_array_object_spec_witness :
    select_one (.arr [.bool true, .null]) (.arrayIndex 1) = some .null ∧
      select_one (.arr [.bool true, .null]) (.arrayIndex 2) = Option.none ∧
      select_one (.obj [("a", .num 3), ("b", .null)]) (.objectKey "b") = some .null ∧
      select_one (.obj [("a", .num 3), ("b", .null)]) (.objectKey "c") = Option.none := by
  refine ⟨?_, ?_, ?_, ?_⟩
  · exact (select_one_array_object_spec [.bool true, .null] 1 [] "x").1 (by decide)
  · exact (select_one_array_object_spec [.bool true, .null] 2 [] "x").2.1 (by decide)
  · exact (select_one_array_object_spec [] 0 [("a", .num 3), ("b", .null)] "b").2.2.1
      (by simp) .null (by simp)
  · exact (select_one_array_object_spec [] 0 [("a", .num 3), ("b", .null)] "c").2.2.2
      (by intro v h; simp at h)

/-- C3 -- `select_one` returns the absent result for every combination
other than an `ObjectKey` step on an object or an `ArrayIndex` step on an
array: any step on a scalar, an `ArrayIndex` step on an object, an
`ObjectKey` step on an array, and a `Selector.none` step on any value. -/
theorem select_one_mismatch_none (v : Value) (s : Selector)
    (o : List (String × Value)) (a : List Value) (i : Nat) (k : String) :
    (v.isScalar = true → select_one v s = Option.none) ∧
      select_one (.obj o) (.arrayIndex i) = Option.none ∧
      select_one (.arr a) (.objectKey k) = Option.none ∧
      select_one v .none = Option.none := by
  refine ⟨fun h => ?_, rfl, rfl, ?_⟩
  · cases v <;> cases s <;> first | rfl | simp [Value.isScalar] at h
  · cases v <;> rfl

theorem select_one_mismatch_none_witness :
    select_one (.num 7) (.arrayIndex 0) = Option.none := by
  exact (select_one_mismatch_none (.num 7) (.arrayIndex 0) [] [] 0 "k").1 rfl

theorem subtreeOk_mk (key : Selector) (text : String) (children : List TreeItem) :
    subtreeOk (.mk key text children) =
      (decide ((children.map TreeItem.identifier).Nodup) && forestSubtreesOk children) := rfl

theorem new_eq_some_iff (key : Selector) (text : String)
    (children : List TreeItem) (it : TreeItem) :
    TreeItem.new key text children = some it ↔
      (children.map TreeItem.identifier).Nodup ∧ it = TreeItem.mk key text children := by
  constructor
  · intro h
    rw [TreeItem.new] at h
    split at h
    · exact ⟨‹_›, (Option.some.inj h).symm⟩
    · cases h
  · rintro ⟨hnd, rfl⟩
    rw [TreeItem.new, if_pos hnd]

theorem recurse_obj (key : Selector) (members : List (String × Value)) :
    recurse key (.obj members) =
      (from_object members).bind fun children =>
        TreeItem.new key key.display children := rfl

theorem recurse_arr (key : Selector) (elems : List Value) :
    recurse key (.arr elems) =
      (from_array elems).bind fun children =>
        TreeItem.new key key.display children := rfl

theorem recurse_scalar (key : Selector) (v : Value) (h : v.isScalar = true) :
    recurse key v =
      some (TreeItem.new_leaf key (key.display ++ ": " ++ v.jsonText)) := by
  cases v <;> first | rfl | simp [Value.isScalar] at h

theorem recurse_identifier {key : Selector} {v : Value} {it : TreeItem}
    (h : recurse key v = some it) : it.identifier = key := by
  cases v with
  | obj members =>
      rw [recurse_obj] at h
      obtain ⟨children, _, hnew⟩ := Option.bind_eq_some.mp h
      obtain ⟨_, rfl⟩ := (new_eq_some_iff _ _ _ _).mp hnew
      rfl
  | arr elems =>
      rw [recurse_arr] at h
      obtain ⟨children, _, hnew⟩ := Option.bind_eq_some.mp h
      obtain ⟨_, rfl⟩ := (new_eq_some_iff _ _ _ _).mp hnew
      rfl
  | null => rw [recurse_scalar key .null rfl] at h; cases h; rfl
  | bool b => rw [recurse_scalar key (.bool b) rfl] at h; cases h; rfl
  | num m => rw [recurse_scalar key (.num m) rfl] at h; cases h; rfl
  | str s => rw [recurse_scalar key (.str s) rfl] at h; cases h; rfl

theorem recurse_children {key : Selector} {v : Value} {it : TreeItem}
    (h : recurse key v = some it) : childForest v = some it.children := by
  cases v with
  | obj members =>
      rw [recurse_obj] at h
      obtain ⟨children, hc, hnew⟩ := Option.bind_eq_some.mp h
      obtain ⟨_, rfl⟩ := (new_eq_some_iff _ _ _ _).mp hnew
      exact hc
  | arr elems =>
      rw [recurse_arr] at h
      obtain ⟨children, hc, hnew⟩ := Option.bind_eq_some.mp h
      obtain ⟨_, rfl⟩ := (new_eq_some_iff _ _ _ _).mp hnew
      exact hc
  | null => rw [recurse_scalar key .null rfl] at h; cases h; rfl
  | bool b => rw [recurse_scalar key (.bool b) rfl] at h; cases h; rfl
  | num m => rw [recurse_scalar key (.num m) rfl] at h; cases h; rfl
  | str s => rw [recurse_scalar key (.str s) rfl] at h; cases h; rfl

theorem wf_obj_iff (members : List (String × Value)) :
    Value.wf (.obj members) = true ↔
      (members.map Prod.fst).Nodup ∧ wfMembers members = true := by
  show (decide ((members.map Prod.fst).Nodup) && wfMembers members) = true ↔ _
  simp

theorem wfList_mem {vs : List Value} {v : Value} (hwf : wfList vs = true) (h : v ∈ vs) :
    v.wf = true := by
  induction vs with
  | nil => cases h
  | cons w rest ih =>
      have hwf' : (w.wf && wfList rest) = true := hwf
      rw [Bool.and_eq_true] at hwf'
      obtain ⟨h1, h2⟩ := hwf'
      rcases List.mem_cons.mp h with rfl | h
      · exact h1
      · exact ih h2 h

theorem wfMembers_mem {ms : List (String × Value)} {k : String} {v : Value}
    (hwf : wfMembers ms = true) (h : (k, v) ∈ ms) : v.wf = true := by
  induction ms with
  | nil => cases h
  | cons m0 rest ih =>
      obtain ⟨k0, v0⟩ := m0
      have hwf' : (v0.wf && wfMembers rest) = true := hwf
      rw [Bool.and_eq_true] at hwf'
      obtain ⟨h1, h2⟩ := hwf'
      rcases List.mem_cons.mp h with he | h
      · cases he
        exact h1
      · exact ih h2 h

theorem wf_select_one {v : Value} {s : Selector} {w : Value}
    (hwf : v.wf = true) (h : select_one v s = some w) : w.wf = true := by
  cases v with
  | obj members =>
      cases s with
      | objectKey key =>
          obtain ⟨m, hfind, hsnd⟩ := Option.map_eq_some'.mp h
          have hmem : m ∈ members := List.mem_of_find?_eq_some hfind
          have hwfm := wfMembers_mem ((wf_obj_iff members).mp hwf).2
            (show (m.1, m.2) ∈ members from hmem)
          exact hsnd ▸ hwfm
      | none => exact Option.noConfusion h
      | arrayIndex i => exact Option.noConfusion h
  | arr elems =>
      cases s with
      | arrayIndex i => exact wfList_mem hwf (List.getElem?_mem h)
      | none => exact Option.noConfusion h
      | objectKey k => exact Option.noConfusion h
  | null => cases s <;> exact Option.noConfusion h
  | bool b => cases s <;> exact Option.noConfusion h
  | num m => cases s <;> exact Option.noConfusion h
  | str t => cases s <;> exact Option.noConfusion h

theorem map_objectKey_fst (members : List (String × Value)) :
    members.map (fun m => Selector.objectKey m.1) =
      (members.map Prod.fst).map Selector.objectKey := by
  induction members with
  | nil => rfl
  | cons m rest ih => simp [ih]

theorem sizeOf_lt_of_mem {v : Value} {vs : List Value} (h : v ∈ vs) :
    sizeOf v < sizeOf vs := by
  induction vs with
  | nil => cases h
  | cons w rest ih =>
      rcases List.mem_cons.mp h with rfl | h
      · simp only [List.cons.sizeOf_spec]
        omega
      · have := ih h
        simp only [List.cons.sizeOf_spec]
        omega

theorem sizeOf_lt_of_mem_members {k : String} {v : Value}
    {ms : List (String × Value)} (h : (k, v) ∈ ms) : sizeOf v < sizeOf ms := by
  induction ms with
  | nil => cases h
  | cons m0 rest ih =>
      rcases List.mem_cons.mp h with he | h
      · cases he
        simp only [List.cons.sizeOf_spec, Prod.mk.sizeOf_spec]
        omega
      · have := ih h
        simp only [List.cons.sizeOf_spec]
        omega

theorem from_object_total_of (members : List (String × Value)) :
    (∀ k v, (k, v) ∈ members → v.wf = true → ∃ item,
        recurse (.objectKey k) v = some item ∧ subtreeOk item = true) →
    wfMembers members = true →
    ∃ items, from_object members = some items ∧
      items.map TreeItem.identifier = members.map (fun m => Selector.objectKey m.1) ∧
      forestSubtreesOk items = true := by
  induction members with
  | nil => exact fun _ _ => ⟨[], rfl, rfl, rfl⟩
  | cons m rest ih =>
      obtain ⟨k, v⟩ := m
      intro hrec hwf
      have hwf' : (v.wf && wfMembers rest) = true := hwf
      rw [Bool.and_eq_true] at hwf'
      obtain ⟨item, hitem, hok⟩ := hrec k v (List.mem_cons_self _ _) hwf'.1
      obtain ⟨items, hitems, hids, hoks⟩ :=
        ih (fun k' v' hm hw => hrec k' v' (List.mem_cons_of_mem _ hm) hw) hwf'.2
      refine ⟨item :: items, ?_, ?_, ?_⟩
      · show (recurse (.objectKey k) v).bind
            (fun item => (from_object rest).map fun items => item :: items) =
          some (item :: items)
        rw [hitem, hitems]
        rfl
      · simp [hids, recurse_identifier hitem]
      · show (subtreeOk item && forestSubtreesOk items) = true
        rw [Bool.and_eq_true]
        exact ⟨hok, hoks⟩

theorem from_array_total_of (elems : List Value) : ∀ (start : Nat),
    (∀ v, v ∈ elems → v.wf = true → ∀ i, ∃ item,
        recurse (.arrayIndex i) v = some item ∧ subtreeOk item = true) →
    wfList elems = true →
    ∃ items, from_array_aux start elems = some items ∧
      items.map TreeItem.identifier =
        (List.range' start elems.length).map Selector.arrayIndex ∧
      forestSubtreesOk items = true := by
  induction elems with
  | nil => exact fun _ _ _ => ⟨[], rfl, rfl, rfl⟩
  | cons v rest ih =>
      intro start hrec hwf
      have hwf' : (v.wf && wfList rest) = true := hwf
      rw [Bool.and_eq_true] at hwf'
      obtain ⟨item, hitem, hok⟩ := hrec v (List.mem_cons_self _ _) hwf'.1 start
      obtain ⟨items, hitems, hids, hoks⟩ :=
        ih (start + 1) (fun v' hm hw => hrec v' (List.mem_cons_of_mem _ hm) hw) hwf'.2
      refine ⟨item :: items, ?_, ?_, ?_⟩
      · show (recurse (.arrayIndex start) v).bind
            (fun item => (from_array_aux (start + 1) rest).map fun items => item :: items) =
          some (item :: items)
        rw [hitem, hitems]
        rfl
      · rw [List.length_cons, List.range'_succ]
        simp [hids, recurse_identifier hitem]
      · show (subtreeOk item && forestSubtreesOk items) = true
        rw [Bool.and_eq_true]
        exact ⟨hok, hoks⟩

theorem recurse_total_aux (n : Nat) : ∀ (v : Value), sizeOf v ≤ n → v.wf = true →
    ∀ (key : Selector), ∃ item, recurse key v = some item ∧ subtreeOk item = true := by
  induction n with
  | zero =>
      intro v hv
      exfalso
      cases v <;> simp at hv
  | succ n ih =>
      intro v hv hwf key
      cases v with
      | null => exact ⟨_, recurse_scalar key .null rfl, rfl⟩
      | bool b => exact ⟨_, recurse_scalar key (.bool b) rfl, rfl⟩
      | num m => exact ⟨_, recurse_scalar key (.num m) rfl, rfl⟩
      | str s => exact ⟨_, recurse_scalar key (.str s) rfl, rfl⟩
      | obj members =>
          have hsz : sizeOf members ≤ n := by
            have hs : sizeOf (Value.obj members) = 1 + sizeOf members := by simp
            omega
          obtain ⟨hnd, hm⟩ := (wf_obj_iff members).mp hwf
          obtain ⟨items, hitems, hids, hoks⟩ := from_object_total_of members
            (fun k v hmem hvwf =>
              ih v (by have := sizeOf_lt_of_mem_members hmem; omega) hvwf (.objectKey k)) hm
          have hnodup : (items.map TreeItem.identifier).Nodup := by
            rw [hids, map_objectKey_fst]
            exact List.Nodup.map (fun a b hab => Selector.objectKey.inj hab) hnd
          refine ⟨TreeItem.mk key key.display items, ?_, ?_⟩
          · rw [recurse_obj, hitems]
            show TreeItem.new key key.display items = _
            rw [TreeItem.new, if_pos hnodup]
          · rw [subtreeOk_mk, Bool.and_eq_true]
            exact ⟨decide_eq_true hnodup, hoks⟩
      | arr elems =>
          have hsz : sizeOf elems ≤ n := by
            have hs : sizeOf (Value.arr elems) = 1 + sizeOf elems := by simp
            omega
          have hm : wfList elems = true := hwf
          obtain ⟨items, hitems, hids, hoks⟩ := from_array_total_of elems 0
            (fun v hmem hvwf i =>
              ih v (by have := sizeOf_lt_of_mem hmem; omega) hvwf (.arrayIndex i)) hm
          have hnodup : (items.map TreeItem.identifier).Nodup := by
            rw [hids]
            exact List.Nodup.map (fun a b hab => Selector.arrayIndex.inj hab)
              (List.nodup_range' 0 elems.length)
          refine ⟨TreeItem.mk key key.display items, ?_, ?_⟩
          · rw [recurse_arr, show from_array elems = from_array_aux 0 elems from rfl, hitems]
            show TreeItem.new key key.display items = _
            rw [TreeItem.new, if_pos hnodup]
          · rw [subtreeOk_mk, Bool.and_eq_true]
            exact ⟨decide_eq_true hnodup, hoks⟩

theorem recurse_total (key : Selector) (v : Value) (h : v.wf = true) :
    ∃ item, recurse key v = some item ∧ subtreeOk item = true :=
  recurse_total_aux (sizeOf v) v le_rfl h key

/-- C6 -- `tree_items` applied to an empty object root or an empty array
root returns the empty node collection, with no node representing the
container itself. -/
theorem empty_root_builds_empty_forest :
    tree_items (.obj []) = some [] ∧ tree_items (.arr []) = some [] := ⟨rfl, rfl⟩

/-- C7 -- For every scalar root value, `tree_items` returns a single-element
collection containing one leaf node whose Selector is `Selector.none` and
whose label is exactly the scalar's textual form, with no key or index
prefix. -/
theorem scalar_root_single_leaf (root : Value) (h : root.isScalar = true) :
    tree_items root = some [TreeItem.mk .none root.jsonText []] := by
  cases root <;> first | rfl | simp [Value.isScalar] at h

theorem scalar_root_single_leaf_witness :
    tree_items (.num 5) = some [TreeItem.mk .none (Value.num 5).jsonText []] :=
  scalar_root_single_leaf (.num 5) rfl

/-- C4 -- For an object root with n members, `tree_items` produces exactly
n top-level nodes carrying `ObjectKey` Selectors of the members' keys in
iteration order; for an array root of length n, exactly n top-level nodes
carrying `ArrayIndex 0` through `ArrayIndex (n-1)` in order. -/
theorem build_tree_top_level_nodes (o : List (String × Value)) (a : List Value)
    (ho : Value.wf (.obj o) = true) (ha : Value.wf (.arr a) = true) :
    (∃ items, tree_items (.obj o) = some items ∧ items.length = o.length ∧
        items.map TreeItem.identifier = o.map (fun m => Selector.objectKey m.1)) ∧
    (∃ items, tree_items (.arr a) = some items ∧ items.length = a.length ∧
        items.map TreeItem.identifier = (List.range a.length).map Selector.arrayIndex) := by
  constructor
  · obtain ⟨hnd, hm⟩ := (wf_obj_iff o).mp ho
    obtain ⟨items, hitems, hids, _⟩ := from_object_total_of o
      (fun k v _ hvwf => recurse_total (.objectKey k) v hvwf) hm
    refine ⟨items, hitems, ?_, hids⟩
    have hlen := congrArg List.length hids
    simpa using hlen
  · obtain ⟨items, hitems, hids, _⟩ := from_array_total_of a 0
      (fun v _ hvwf i => recurse_total (.arrayIndex i) v hvwf) ha
    refine ⟨items, hitems, ?_, ?_⟩
    · have hlen := congrArg List.length hids
      simpa using hlen
    · rw [hids, List.range_eq_range']

theorem build_tree_top_level_nodes_witness :
    (∃ items, tree_items (.obj [("x", Value.null)]) = some items ∧
        items.length = [("x", Value.null)].length ∧
        items.map TreeItem.identifier =
          [("x", Value.null)].map (fun m => Selector.objectKey m.1)) ∧
    (∃ items, tree_items (.arr [Value.null]) = some items ∧
        items.length = [Value.null].length ∧
        items.map TreeItem.identifier =
          (List.range [Value.null].length).map Selector.arrayIndex) :=
  build_tree_top_level_nodes [("x", Value.null)] [Value.null] rfl rfl

/-- C5 -- For a (selector, value) pair below the root: a container value
yields a node labelled with the selector's display text whose children are
the recursively built member nodes in source order (an empty container
yielding such a node with zero children), while a scalar value yields a
leaf labelled with the selector's display text, the separator, and the
scalar's textual form. -/
theorem recurse_node_structure (key : Selector) (value : Value) (h : value.wf = true) :
    (∀ members, value = .obj members → ∃ children,
        from_object members = some children ∧
        recurse key value = some (TreeItem.mk key key.display children)) ∧
    (∀ elems, value = .arr elems → ∃ children,
        from_array elems = some children ∧
        recurse key value = some (TreeItem.mk key key.display children)) ∧
    recurse key (.obj []) = some (TreeItem.mk key key.display []) ∧
    recurse key (.arr []) = some (TreeItem.mk key key.display []) ∧
    (value.isScalar = true →
        recurse key value =
          some (TreeItem.mk key (key.display ++ ": " ++ value.jsonText) [])) := by
  refine ⟨?_, ?_, rfl, rfl, fun hs => recurse_scalar key value hs⟩
  · rintro members rfl
    obtain ⟨item, hit, _⟩ := recurse_total key (.obj members) h
    rw [recurse_obj] at hit
    obtain ⟨children, hc, hnew⟩ := Option.bind_eq_some.mp hit
    obtain ⟨_, rfl⟩ := (new_eq_some_iff _ _ _ _).mp hnew
    refine ⟨children, hc, ?_⟩
    rw [recurse_obj, hc]
    exact hnew
  · rintro elems rfl
    obtain ⟨item, hit, _⟩ := recurse_total key (.arr elems) h
    rw [recurse_arr] at hit
    obtain ⟨children, hc, hnew⟩ := Option.bind_eq_some.mp hit
    obtain ⟨_, rfl⟩ := (new_eq_some_iff _ _ _ _).mp hnew
    refine ⟨children, hc, ?_⟩
    rw [recurse_arr, hc]
    exact hnew

theorem recurse_node_structure_witness :
    ∃ children, from_object [("a", Value.null)] = some children ∧
      recurse (.objectKey "k") (.obj [("a", Value.null)]) =
        some (TreeItem.mk (.objectKey "k")
          (Selector.display (.objectKey "k")) children) :=
  (recurse_node_structure (.objectKey "k") (.obj [("a", Value.null)]) rfl).1
    [("a", Value.null)] rfl

/-- C9 -- For every well-formed root, building the tree succeeds (the
`unwrap` calls in `recurse` never panic) and in every sibling group of the
produced forest, the top-level group included, the Selectors are pairwise
distinct. -/
theorem build_tree_selectors_distinct (root : Value) (h : root.wf = true) :
    ∃ items, tree_items root = some items ∧ forestOk items = true := by
  cases root with
  | obj members =>
      obtain ⟨hnd, hm⟩ := (wf_obj_iff members).mp h
      obtain ⟨items, hitems, hids, hoks⟩ := from_object_total_of members
        (fun k v _ hvwf => recurse_total (.objectKey k) v hvwf) hm
      refine ⟨items, hitems, ?_⟩
      show (decide ((items.map TreeItem.identifier).Nodup) && forestSubtreesOk items) = true
      rw [Bool.and_eq_true]
      refine ⟨decide_eq_true ?_, hoks⟩
      rw [hids, map_objectKey_fst]
      exact List.Nodup.map (fun a b hab => Selector.objectKey.inj hab) hnd
  | arr elems =>
      obtain ⟨items, hitems, hids, hoks⟩ := from_array_total_of elems 0
        (fun v _ hvwf i => recurse_total (.arrayIndex i) v hvwf) h
      refine ⟨items, hitems, ?_⟩
      show (decide ((items.map TreeItem.identifier).Nodup) && forestSubtreesOk items) = true
      rw [Bool.and_eq_true]
      refine ⟨decide_eq_true ?_, hoks⟩
      rw [hids]
      exact List.Nodup.map (fun a b hab => Selector.arrayIndex.inj hab)
        (List.nodup_range' 0 elems.length)
  | null => exact ⟨_, rfl, rfl⟩
  | bool b => exact ⟨_, rfl, rfl⟩
  | num m => exact ⟨_, rfl, rfl⟩
  | str s => exact ⟨_, rfl, rfl⟩

theorem build_tree_selectors_distinct_witness :
    ∃ items, tree_items exampleRoot = some items ∧ forestOk items = true :=
  build_tree_selectors_distinct exampleRoot rfl

theorem from_object_find (members : List (String × Value)) :
    ∀ (items : List TreeItem), from_object members = some items →
    ∀ (s : Selector) (it : TreeItem), findItem items s = some it →
    ∃ w, select_one (.obj members) s = some w ∧ recurse s w = some it := by
  induction members with
  | nil =>
      intro items h s it hfind
      have hnil : items = [] := (Option.some.inj h).symm
      subst hnil
      exact Option.noConfusion hfind
  | cons m rest ih =>
      obtain ⟨k, v⟩ := m
      intro items h s it hfind
      have h' : (recurse (.objectKey k) v).bind
          (fun item => (from_object rest).map fun items => item :: items) =
            some items := h
      obtain ⟨item0, hrec0, hmap⟩ := Option.bind_eq_some.mp h'
      obtain ⟨items', hrest, hcons⟩ := Option.map_eq_some'.mp hmap
      subst hcons
      have hid0 : item0.identifier = .objectKey k := recurse_identifier hrec0
      by_cases hs : s = Selector.objectKey k
      · subst hs
        have hhead : findItem (item0 :: items') (.objectKey k) = some item0 :=
          List.find?_cons_of_pos _ (by simp [hid0])
        rw [hfind] at hhead
        obtain rfl := Option.some.inj hhead
        refine ⟨v, ?_, hrec0⟩
        show (List.find? (fun m => m.1 == k) ((k, v) :: rest)).map Prod.snd = some v
        rw [List.find?_cons_of_pos _ (by simp)]
        rfl
      · have hne : (item0.identifier == s) = false := by
          rw [hid0]
          exact beq_eq_false_iff_ne.mpr (fun he => hs he.symm)
        have hfind' : findItem items' s = some it := by
          have heq : findItem (item0 :: items') s = findItem items' s :=
            List.find?_cons_of_neg _ (by simp [hne])
          rw [← heq]
          exact hfind
        obtain ⟨w, hsel, hrec⟩ := ih items' hrest s it hfind'
        refine ⟨w, ?_, hrec⟩
        cases s with
        | objectKey k2 =>
            have hk : (k == k2) = false :=
              beq_eq_false_iff_ne.mpr
                (fun he => hs (congrArg Selector.objectKey he.symm))
            show (List.find? (fun m => m.1 == k2) ((k, v) :: rest)).map Prod.snd = some w
            rw [List.find?_cons_of_neg _ (by simp [hk])]
            exact hsel
        | arrayIndex i => exact Option.noConfusion hsel
        | none => exact Option.noConfusion hsel

theorem from_array_aux_find (elems : List Value) : ∀ (start : Nat)
    (items : List TreeItem), from_array_aux start elems = some items →
    ∀ (s : Selector) (it : TreeItem), findItem items s = some it →
    ∃ j w, elems[j]? = some w ∧ s = .arrayIndex (start + j) ∧
      recurse s w = some it := by
  induction elems with
  | nil =>
      intro start items h s it hfind
      have hnil : items = [] := (Option.some.inj h).symm
      subst hnil
      exact Option.noConfusion hfind
  | cons v rest ih =>
      intro start items h s it hfind
      have h' : (recurse (.arrayIndex start) v).bind
          (fun item => (from_array_aux (start + 1) rest).map fun items => item :: items) =
            some items := h
      obtain ⟨item0, hrec0, hmap⟩ := Option.bind_eq_some.mp h'
      obtain ⟨items', hrest, hcons⟩ := Option.map_eq_some'.mp hmap
      subst hcons
      have hid0 : item0.identifier = .arrayIndex start := recurse_identifier hrec0
      by_cases hs : s = Selector.arrayIndex start
      · subst hs
        have hhead : findItem (item0 :: items') (.arrayIndex start) = some item0 :=
          List.find?_cons_of_pos _ (by simp [hid0])
        rw [hfind] at hhead
        obtain rfl := Option.some.inj hhead
        exact ⟨0, v, List.getElem?_cons_zero, by rw [Nat.add_zero], hrec0⟩
      · have hne : (item0.identifier == s) = false := by
          rw [hid0]
          exact beq_eq_false_iff_ne.mpr (fun he => hs he.symm)
        have hfind' : findItem items' s = some it := by
          have heq : findItem (item0 :: items') s = findItem items' s :=
            List.find?_cons_of_neg _ (by simp [hne])
          rw [← heq]
          exact hfind
        obtain ⟨j, w, hj, hseq, hrec⟩ := ih (start + 1) items' hrest s it hfind'
        refine ⟨j + 1, w, ?_, ?_, hrec⟩
        · rw [List.getElem?_cons_succ]
          exact hj
        · rw [hseq]
          congr 1
          omega

theorem childForest_find {v : Value} {items : List TreeItem}
    (hitems : childForest v = some items) {s : Selector} {it : TreeItem}
    (hfind : findItem items s = some it) :
    ∃ w, select_one v s = some w ∧ recurse s w = some it := by
  cases v with
  | obj members => exact from_object_find members items hitems s it hfind
  | arr elems =>
      obtain ⟨j, w, hj, hseq, hrec⟩ := from_array_aux_find elems 0 items hitems s it hfind
      subst hseq
      refine ⟨w, ?_, hrec⟩
      show elems[0 + j]? = some w
      rw [Nat.zero_add]
      exact hj
  | null =>
      have hnil : items = [] := (Option.some.inj hitems).symm
      subst hnil
      exact Option.noConfusion hfind
  | bool b =>
      have hnil : items = [] := (Option.some.inj hitems).symm
      subst hnil
      exact Option.noConfusion hfind
  | num m =>
      have hnil : items = [] := (Option.some.inj hitems).symm
      subst hnil
      exact Option.noConfusion hfind
  | str t =>
      have hnil : items = [] := (Option.some.inj hitems).symm
      subst hnil
      exact Option.noConfusion hfind

theorem forestAt_select (p : List Selector) : ∀ (v : Value) (items : List TreeItem)
    (node : TreeItem), v.wf = true → childForest v = some items →
    forestAt items p = some node →
    ∃ w, select v p = some w ∧ recurse (p.getLastD .none) w = some node := by
  induction p with
  | nil =>
      intro v items node _ _ hp
      exact Option.noConfusion hp
  | cons s rest ih =>
      intro v items node hwf hitems hp
      cases rest with
      | nil =>
          have hfind : findItem items s = some node := hp
          obtain ⟨w, hsel, hrec⟩ := childForest_find hitems hfind
          refine ⟨w, ?_, hrec⟩
          rw [select_cons, hsel]
          rfl
      | cons r rs =>
          have hp' : (match findItem items s with
              | Option.none => Option.none
              | some it => forestAt it.children (r :: rs)) = some node := hp
          cases hfind : findItem items s with
          | none =>
              rw [hfind] at hp'
              exact Option.noConfusion hp'
          | some it =>
              rw [hfind] at hp'
              obtain ⟨w, hsel, hrec⟩ := childForest_find hitems hfind
              obtain ⟨u, hselr, hrecu⟩ := ih w it.children node
                (wf_select_one hwf hsel) (recurse_children hrec) hp'
              refine ⟨u, ?_, hrecu⟩
              rw [select_cons, hsel]
              exact hselr

/-- C10(corrected) -- For every well-formed Object or Array root and every
node of the built tree, the path formed by the Selectors from a top-level
node down to that node resolves: `select` succeeds on it and returns
exactly the sub-value from which that node was built (the node is the
result of `recurse` on the path's last Selector and that sub-value).  The
restriction to container roots is forced: the single node built for a
scalar root carries `Selector.none`, which `select` never resolves. -/
theorem build_select_agree (root : Value) (hwf : root.wf = true)
    (hroot : root.isContainer = true) (items : List TreeItem)
    (hitems : tree_items root = some items) (p : List Selector) (node : TreeItem)
    (hp : forestAt items p = some node) :
    ∃ v, select root p = some v ∧ recurse (p.getLastD .none) v = some node := by
  have hcf : childForest root = some items := by
    cases root with
    | obj members => exact hitems
    | arr elems => exact hitems
    | null => simp [Value.isContainer] at hroot
    | bool b => simp [Value.isContainer] at hroot
    | num m => simp [Value.isContainer] at hroot
    | str t => simp [Value.isContainer] at hroot
  exact forestAt_select p root items node hwf hcf hp

theorem build_select_agree_counterexample :
    tree_items (.bool false) = some [TreeItem.mk .none "false" []] ∧
      forestAt [TreeItem.mk .none "false" []] [Selector.none] =
        some (TreeItem.mk .none "false" []) ∧
      select (.bool false) [Selector.none] = Option.none := ⟨rfl, rfl, rfl⟩

theorem build_select_agree_witness :
    ∃ v, select (.arr [.bool true]) [Selector.arrayIndex 0] = some v ∧
      recurse (([Selector.arrayIndex 0]).getLastD .none) v =
        some (TreeItem.mk (.arrayIndex 0) "0: true" []) :=
  build_select_agree (.arr [.bool true]) rfl rfl
    [TreeItem.mk (.arrayIndex 0) "0: true" []] rfl [Selector.arrayIndex 0]
    (TreeItem.mk (.arrayIndex 0) "0: true" []) rfl

end JsonTree
